import Mathlib

/-!
# Possession queries of `Character` (Cataclysm-DDA, `src/character.h`)

A shallow embedding of the item-possession part of `class Character`:
`is_worn`, `has_item_with`, `items_with`, `remove_items_with`,
`get_turn_died` and `set_turn_died`, followed by the properties proved about them.

`character.h` only declares the `item` and `inventory` classes it works on
(`item.h`, `inventory.h` and `character.cpp` are not part of the sources), so
the few members of those classes that the header calls are modelled from the
specification; each such definition says so in its doc comment.  The member
functions of `Character` defined in the header are transcribed line by line.

A C++ reference to an item is modelled by the place where the item object
lives (`item_ptr`): two references are the same address exactly when they name
the same place, which is what the ownership invariant of the possession tree
(every item is owned by exactly one slot) gives.
-/

/-! ## Items -/

/-- Modelled from the spec: the class `item` (`item.h` is missing). An Item Node is
a value with its own data and a nested sequence of contained Item Nodes.  The own
data kept here are the type id (`itype_id`, a string in the header) and the
`mission_id` member that `has_mission_item_filter` reads. -/
inductive item where
  | mk (typeId : String) (mission_id : Int) (contents : List item)

namespace item

/-- The type id of an item. -/
def typeId : item → String
  | mk t _ _ => t

/-- The member `mission_id` read by `Character::has_mission_item_filter`. -/
def mission_id : item → Int
  | mk _ m _ => m

/-- The member `contents`: the items directly inside this one. -/
def contents : item → List item
  | mk _ _ c => c

/-- Modelled from the spec: `item::is_null` (`item.h` is missing). The weapon slot holds
"a sentinel null item value (not absence)"; an item is that sentinel when its type
id is the null type. -/
def is_null (it : item) : Bool := it.typeId == "null"

end item

/-- The member `Character::ret_null`, the "Null item" of the header: a default item,
of the null type, on no mission and with nothing inside. -/
def ret_null : item := item.mk "null" (-1) []

/-! ## References to items -/

/-- The owner at the top of the place an item object lives in: a slot of the
inventory, the weapon member, a node of the `worn` list, or some object that
does not belong to this character at all. -/
inductive item_root where
  | inv (i : Nat)
  | weapon
  | worn (i : Nat)
  | elsewhere (n : Nat)
  deriving DecidableEq, Repr

/-- The address of an item object: its top-level owner and the indices followed
through `contents` to reach it (the empty path is the top-level object itself). -/
structure item_ptr where
  root : item_root
  path : List Nat
  deriving DecidableEq, Repr

/-- The address of the `j`-th element of the `contents` of the item at `p`. -/
def item_ptr.child (p : item_ptr) (j : Nat) : item_ptr := ⟨p.root, p.path ++ [j]⟩

/-! ## The helpers of `inventory` and `item` -/

/-- Modelled from the spec: the class `inventory` (`inventory.h` is missing): "a bag of Item
Nodes"; the invlet key is "for UI convenience only" and is left out. -/
structure inventory where
  items : List item

mutual
/-- Modelled from the spec: `inventory::has_item_with_recursive` (`inventory.h` is
missing): the predicate matches the item "or any of [its] nested contents,
recursively"; depth first, stopping at the first match. -/
def inventory.has_item_with_recursive (filter : item → Bool) : item → Bool
  | item.mk t m cs =>
    if filter (item.mk t m cs) then true
    else inventory.has_item_with_contents filter cs
/-- Modelled from the spec: the loop of `inventory::has_item_with_recursive` over the
contents of an item. -/
def inventory.has_item_with_contents (filter : item → Bool) : List item → Bool
  | [] => false
  | c :: cs =>
    if inventory.has_item_with_recursive filter c then true
    else inventory.has_item_with_contents filter cs
end

mutual
/-- Modelled from the spec: `inventory::items_with_recursive` (`inventory.h` is
missing): appends to `vec` a reference to the item (living at `p`) when it matches,
then does the same for each of its contents, depth first. -/
def inventory.items_with_recursive (filter : item → Bool) :
    List item_ptr → item_ptr → item → List item_ptr
  | vec, p, item.mk t m cs =>
    inventory.items_with_contents filter
      (if filter (item.mk t m cs) then vec ++ [p] else vec) p 0 cs
/-- Modelled from the spec: the loop of `inventory::items_with_recursive` over the
contents of the item living at `p`, from its `j`-th element on. -/
def inventory.items_with_contents (filter : item → Bool) :
    List item_ptr → item_ptr → Nat → List item → List item_ptr
  | vec, _, _, [] => vec
  | vec, p, j, c :: cs =>
    inventory.items_with_contents filter
      (inventory.items_with_recursive filter vec (p.child j) c) p (j + 1) cs
end

mutual
/-- Modelled from the spec: `item::remove_items_with` (`item.h` is missing): the
"recursive extraction of its own contents".  A content that matches leaves with
everything inside it, as a matching worn item does in
`Character::remove_items_with`; "for every non-matching container visited, its
contents are still filtered recursively".  Returns the item as it is left and the
removed items. -/
def item.remove_items_with (filter : item → Bool) : item → item × List item
  | item.mk t m cs =>
    let r := item.remove_contents_with filter cs []
    (item.mk t m r.1, r.2)
/-- Modelled from the spec: the loop of `item::remove_items_with` over a list of items:
what stays of the list, and `result` grown by what was removed. -/
def item.remove_contents_with (filter : item → Bool) :
    List item → List item → List item × List item
  | [], result => ([], result)
  | it :: rest, result =>
    if filter it then
      item.remove_contents_with filter rest (it :: result)
    else
      let r := item.remove_items_with filter it
      let s := item.remove_contents_with filter rest (r.2 ++ result)
      (r.1 :: s.1, s.2)
end

namespace inventory

/-- Modelled from the spec: `inventory::has_item_with` (`inventory.h` is missing):
true iff the predicate matches "any inventory item, or any of their nested contents,
recursively". -/
def has_item_with (inv : inventory) (filter : item → Bool) : Bool :=
  inv.items.any (inventory.has_item_with_recursive filter)

/-- Modelled from the spec: the loop of `inventory::items_with` over the bag, from its
`i`-th item on. -/
def items_with_from (filter : item → Bool) : List item_ptr → Nat → List item → List item_ptr
  | vec, _, [] => vec
  | vec, i, it :: rest =>
    items_with_from filter
      (inventory.items_with_recursive filter vec ⟨item_root.inv i, []⟩ it) (i + 1) rest

/-- Modelled from the spec: `inventory::items_with` (`inventory.h` is missing):
references to all matching nodes of the bag and of their nested contents. -/
def items_with (inv : inventory) (filter : item → Bool) : List item_ptr :=
  items_with_from filter [] 0 inv.items

/-- Modelled from the spec: `inventory::remove_items_with` (`inventory.h` is missing):
"matching inventory items are removed from the bag", the contents of the others are
filtered recursively; returns the bag as it is left and the removed items. -/
def remove_items_with (inv : inventory) (filter : item → Bool) : inventory × List item :=
  let r := item.remove_contents_with filter inv.items []
  (⟨r.1⟩, r.2)

end inventory

/-! ## `class Character` -/

/-- The members of `Character` that the possession queries read and write. -/
structure Character where
  worn : List item
  inv : inventory
  weapon : item
  turn_died : Int

/-- The functor `Character::has_mission_item_filter`. -/
def has_mission_item_filter (mission_id : Int) (it : item) : Bool :=
  it.mission_id == mission_id

namespace Character

/-- The loop of `is_worn`: `elem` is the `i`-th node of `worn`, and `&thing == &elem`
compares addresses. -/
def is_worn_from (thing : item_ptr) : Nat → List item → Bool
  | _, [] => false
  | i, _ :: rest =>
    if thing = ⟨item_root.worn i, []⟩ then true
    else is_worn_from thing (i + 1) rest

/-- Member `Character::is_worn`. -/
def is_worn (c : Character) (thing : item_ptr) : Bool :=
  is_worn_from thing 0 c.worn

/-- The loop of `has_item_with` over `worn`. -/
def has_item_with_worn (filter : item → Bool) : List item → Bool
  | [] => false
  | w :: rest =>
    if inventory.has_item_with_recursive filter w then true
    else has_item_with_worn filter rest

/-- Member `Character::has_item_with`. -/
def has_item_with (c : Character) (filter : item → Bool) : Bool :=
  if c.inv.has_item_with filter then true
  else if !c.weapon.is_null && inventory.has_item_with_recursive filter c.weapon then true
  else has_item_with_worn filter c.worn

/-- The loop of `items_with` over `worn`, from its `i`-th node on. -/
def items_with_worn (filter : item → Bool) : List item_ptr → Nat → List item → List item_ptr
  | result, _, [] => result
  | result, i, w :: rest =>
    items_with_worn filter
      (inventory.items_with_recursive filter result ⟨item_root.worn i, []⟩ w) (i + 1) rest

/-- Member `Character::items_with` (both overloads have this body). -/
def items_with (c : Character) (filter : item → Bool) : List item_ptr :=
  let result := c.inv.items_with filter
  let result :=
    if !c.weapon.is_null then
      inventory.items_with_recursive filter result ⟨item_root.weapon, []⟩ c.weapon
    else result
  items_with_worn filter result 0 c.worn

/-- Modelled from the spec: `Character::remove_weapon` (`character.cpp` is missing):
hands out the weapon and leaves the null item in the slot ("weapon slot becomes the
null-item sentinel"). -/
def remove_weapon (c : Character) : Character × item :=
  ({ c with weapon := ret_null }, c.weapon)

/-- The loop of `remove_items_with` over `worn`: a matching article is spliced, whole,
to the front of `result`; otherwise what its contents give up is spliced to the front
of `result` and the article stays. -/
def remove_items_with_worn (filter : item → Bool) :
    List item → List item → List item × List item
  | [], result => ([], result)
  | article :: rest, result =>
    if filter article then
      remove_items_with_worn filter rest (article :: result)
    else
      let r := item.remove_items_with filter article
      let s := remove_items_with_worn filter rest (r.2 ++ result)
      (r.1 :: s.1, s.2)

/-- Member `Character::remove_items_with`: the character as it is left and the returned list. -/
def remove_items_with (c : Character) (filter : item → Bool) : Character × List item :=
  let r := c.inv.remove_items_with filter
  let w := remove_items_with_worn filter c.worn r.2
  let c := { c with inv := r.1, worn := w.1 }
  let result := w.2
  if !c.weapon.is_null then
    if filter c.weapon then
      let t := c.remove_weapon
      (t.1, result ++ [t.2])
    else
      let t := item.remove_items_with filter c.weapon
      ({ c with weapon := t.1 }, t.2 ++ result)
  else
    (c, result)

/-- Member `Character::get_turn_died`. -/
def get_turn_died (c : Character) : Int := c.turn_died

/-- Member `Character::set_turn_died`: `turn_died = (turn_died != -1) ? turn : turn_died`. -/
def set_turn_died (c : Character) (turn : Int) : Character :=
  { c with turn_died := if c.turn_died != -1 then turn else c.turn_died }

end Character

/-! ## Vocabulary of the properties -/

/-- The relation `item.within x it`: `x` is `it` itself or an item nested, at any depth,
inside `it`. -/
inductive item.within : item → item → Prop
  | self (it : item) : item.within it it
  | step {x c it : item} : c ∈ it.contents → item.within x c → item.within x it

mutual
/-- The own data of every node of an item tree: the item and all it contains. -/
def item.nodes : item → List (String × Int)
  | item.mk t m cs => (t, m) :: item.nodes_list cs
/-- The own data of every node of a list of item trees. -/
def item.nodes_list : List item → List (String × Int)
  | [] => []
  | c :: cs => item.nodes c ++ item.nodes_list cs
end

mutual
/-- An item with every matching item taken out of its contents, recursively: a
matching content goes, a content that does not match stays, pruned in turn. -/
def item.prune (filter : item → Bool) : item → item
  | item.mk t m cs => item.mk t m (item.prune_list filter cs)
/-- A list of items without its matching elements, the others pruned. -/
def item.prune_list (filter : item → Bool) : List item → List item
  | [] => []
  | c :: cs =>
    if filter c then item.prune_list filter cs
    else item.prune filter c :: item.prune_list filter cs
end

namespace Character

/-- The top-level items in the possession of a character: the inventory items, the
weapon when the slot does not hold the null item, and the worn items. -/
def owns (c : Character) (r : item) : Prop :=
  r ∈ c.inv.items ∨ (c.weapon.is_null = false ∧ r = c.weapon) ∨ r ∈ c.worn

/-- The items in the possession of a character: the top-level ones and everything
nested inside them. -/
def possesses (c : Character) (x : item) : Prop :=
  ∃ r, c.owns r ∧ x.within r

/-- The own data of every item node reachable from the possession tree. -/
def nodes (c : Character) : List (String × Int) :=
  item.nodes_list c.inv.items
    ++ (if c.weapon.is_null then [] else c.weapon.nodes)
    ++ item.nodes_list c.worn

end Character

/-- The item, if any, that lives `path` deep inside `it`. -/
def item.at_path : item → List Nat → Option item
  | it, [] => some it
  | it, j :: path =>
    match it.contents.get? j with
    | some c => item.at_path c path
    | none => none

/-- The item object a reference points to, when it points into the possession tree. -/
def Character.deref (c : Character) (p : item_ptr) : Option item :=
  match p.root with
  | item_root.inv i =>
    match c.inv.items.get? i with
    | some it => it.at_path p.path
    | none => none
  | item_root.weapon => c.weapon.at_path p.path
  | item_root.worn i =>
    match c.worn.get? i with
    | some it => it.at_path p.path
    | none => none
  | item_root.elsewhere _ => none

/-! ## Sample items, characters and filters -/

/-- A backpack holding the given items. -/
def backpack (contents : List item) : item := item.mk "backpack" (-1) contents

/-- A filter that looks into an item: backpacks with nothing inside. -/
def is_empty_backpack (it : item) : Bool :=
  it.typeId == "backpack" && it.contents.isEmpty

/-- A character wearing a backpack that holds an empty backpack, and nothing else. -/
def hiker : Character := ⟨[backpack [backpack []]], ⟨[]⟩, ret_null, -1⟩

/-- An arrow. -/
def arrow : item := item.mk "arrow" (-1) []

/-- A quiver holding one arrow. -/
def quiver : item := item.mk "quiver" (-1) [arrow]

/-- A filter on the type id alone: quivers. -/
def is_quiver (it : item) : Bool := it.typeId == "quiver"

/-- A filter on the type id alone: arrows. -/
def is_arrow (it : item) : Bool := it.typeId == "arrow"

/-- A character wearing a quiver with an arrow, and nothing else. -/
def archer : Character := ⟨[quiver], ⟨[]⟩, ret_null, -1⟩

/-- A character with nothing: empty inventory, nothing worn, the null item as weapon,
not dead. -/
def pauper : Character := ⟨[], ⟨[]⟩, ret_null, -1⟩

/-- A knife. -/
def knife : item := item.mk "knife" (-1) []

/-- A package for mission 7. -/
def package : item := item.mk "package" 7 []

/-- A character wielding a knife, wearing a backpack with a knife and a mission package
in it and a quiver, and carrying a knife and a backpack with a package. -/
def courier : Character :=
  ⟨[backpack [knife, package], quiver], ⟨[knife, backpack [package]]⟩, knife, -1⟩

/-- A character wielding a mission package, wearing a backpack with a package in it, and
carrying a package and a backpack with a knife. -/
def smuggler : Character :=
  ⟨[backpack [package]], ⟨[package, backpack [knife]]⟩, package, -1⟩

/-- A character wielding a knife, wearing a knife and a backpack with a knife in it, and
carrying a knife. -/
def duelist : Character := ⟨[knife, backpack [knife]], ⟨[knife]⟩, knife, -1⟩

/-! ## Induction over item trees -/

mutual
theorem item.induct_aux {P : item → Prop}
    (h : ∀ t m cs, (∀ c ∈ cs, P c) → P (item.mk t m cs)) : ∀ it, P it
  | item.mk t m cs => h t m cs (item.induct_list h cs)
theorem item.induct_list {P : item → Prop}
    (h : ∀ t m cs, (∀ c ∈ cs, P c) → P (item.mk t m cs)) : ∀ cs : List item, ∀ c ∈ cs, P c
  | [] => fun _ hc => absurd hc (List.not_mem_nil _)
  | d :: ds => fun c hc =>
    match List.mem_cons.1 hc with
    | Or.inl e => e ▸ item.induct_aux h d
    | Or.inr hm => item.induct_list h ds c hm
end

/-! ## Searching -/

theorem inventory.has_item_with_contents_eq_any (filter : item → Bool) (cs : List item) :
    inventory.has_item_with_contents filter cs
      = cs.any (inventory.has_item_with_recursive filter) := by
  induction cs with
  | nil => rfl
  | cons c cs ih =>
    rw [inventory.has_item_with_contents, ih]
    cases h : inventory.has_item_with_recursive filter c <;> simp [h]

theorem inventory.has_item_with_recursive_mk (filter : item → Bool) (t : String) (m : Int)
    (cs : List item) :
    inventory.has_item_with_recursive filter (item.mk t m cs)
      = (filter (item.mk t m cs) || cs.any (inventory.has_item_with_recursive filter)) := by
  rw [inventory.has_item_with_recursive, inventory.has_item_with_contents_eq_any]
  cases filter (item.mk t m cs) <;> simp

theorem item.within_mk_iff (x : item) (t : String) (m : Int) (cs : List item) :
    x.within (item.mk t m cs) ↔ x = item.mk t m cs ∨ ∃ c ∈ cs, x.within c := by
  constructor
  · intro h
    cases h with
    | self => exact Or.inl rfl
    | step hc hx => exact Or.inr ⟨_, hc, hx⟩
  · rintro (rfl | ⟨c, hc, hx⟩)
    · exact item.within.self _
    · exact item.within.step hc hx

theorem inventory.has_item_with_recursive_iff (filter : item → Bool) (it : item) :
    inventory.has_item_with_recursive filter it = true
      ↔ ∃ x, x.within it ∧ filter x = true := by
  induction it using item.induct_aux with
  | h t m cs ih =>
    rw [inventory.has_item_with_recursive_mk, Bool.or_eq_true, List.any_eq_true]
    constructor
    · rintro (h | ⟨c, hc, h⟩)
      · exact ⟨_, item.within.self _, h⟩
      · obtain ⟨x, hx, hp⟩ := (ih c hc).1 h
        exact ⟨x, item.within.step hc hx, hp⟩
    · rintro ⟨x, hx, hp⟩
      rcases (item.within_mk_iff x t m cs).1 hx with rfl | ⟨c, hc, hxc⟩
      · exact Or.inl hp
      · exact Or.inr ⟨c, hc, (ih c hc).2 ⟨x, hxc, hp⟩⟩

theorem Character.has_item_with_worn_eq_any (filter : item → Bool) (ws : List item) :
    Character.has_item_with_worn filter ws
      = ws.any (inventory.has_item_with_recursive filter) := by
  induction ws with
  | nil => rfl
  | cons w ws ih =>
    rw [Character.has_item_with_worn, ih]
    cases h : inventory.has_item_with_recursive filter w <;> simp [h]

theorem Character.has_item_with_eq (c : Character) (filter : item → Bool) :
    c.has_item_with filter
      = (c.inv.items.any (inventory.has_item_with_recursive filter)
        || (!c.weapon.is_null && inventory.has_item_with_recursive filter c.weapon)
        || c.worn.any (inventory.has_item_with_recursive filter)) := by
  unfold Character.has_item_with inventory.has_item_with
  rw [Character.has_item_with_worn_eq_any]
  cases c.inv.items.any (inventory.has_item_with_recursive filter) <;>
    cases (!c.weapon.is_null && inventory.has_item_with_recursive filter c.weapon) <;> simp

/-- C1: `has_item_with` returns true exactly when the predicate holds for an inventory
item, the weapon (when the slot does not hold the null item), a worn item, or an item
nested at any depth inside one of those. -/
theorem Character.has_item_with_iff (c : Character) (filter : item → Bool) :
    c.has_item_with filter = true
      ↔ ∃ r, (r ∈ c.inv.items ∨ (c.weapon.is_null = false ∧ r = c.weapon) ∨ r ∈ c.worn)
          ∧ ∃ x, x.within r ∧ filter x = true := by
  rw [Character.has_item_with_eq]
  simp only [Bool.or_eq_true, Bool.and_eq_true, List.any_eq_true, Bool.not_eq_true',
    inventory.has_item_with_recursive_iff]
  constructor
  · rintro ((⟨r, hr, h⟩ | ⟨hn, h⟩) | ⟨r, hr, h⟩)
    · exact ⟨r, Or.inl hr, h⟩
    · exact ⟨c.weapon, Or.inr (Or.inl ⟨hn, rfl⟩), h⟩
    · exact ⟨r, Or.inr (Or.inr hr), h⟩
  · rintro ⟨r, hr | ⟨hn, rfl⟩ | hr, h⟩
    · exact Or.inl (Or.inl ⟨r, hr, h⟩)
    · exact Or.inl (Or.inr ⟨hn, h⟩)
    · exact Or.inr ⟨r, hr, h⟩

/-! ## Gathering -/

theorem inventory.items_with_contents_eq_nil (filter : item → Bool) (cs : List item)
    (ih : ∀ c ∈ cs, ∀ vec p, inventory.items_with_recursive filter vec p c = []
      ↔ vec = [] ∧ inventory.has_item_with_recursive filter c = false) :
    ∀ vec p j, inventory.items_with_contents filter vec p j cs = []
      ↔ vec = [] ∧ cs.any (inventory.has_item_with_recursive filter) = false := by
  induction cs with
  | nil => intro vec p j; simp [inventory.items_with_contents]
  | cons c cs ihc =>
    intro vec p j
    rw [inventory.items_with_contents,
      ihc (fun d hd => ih d (List.mem_cons_of_mem _ hd)), ih c (List.mem_cons_self _ _)]
    simp [and_assoc]

theorem inventory.items_with_recursive_eq_nil (filter : item → Bool) (it : item) :
    ∀ vec p, inventory.items_with_recursive filter vec p it = []
      ↔ vec = [] ∧ inventory.has_item_with_recursive filter it = false := by
  induction it using item.induct_aux with
  | h t m cs ih =>
    intro vec p
    rw [inventory.items_with_recursive, inventory.items_with_contents_eq_nil filter cs ih,
      inventory.has_item_with_recursive_mk]
    cases filter (item.mk t m cs) <;> simp

theorem inventory.items_with_from_eq_nil (filter : item → Bool) (l : List item) :
    ∀ vec i, inventory.items_with_from filter vec i l = []
      ↔ vec = [] ∧ l.any (inventory.has_item_with_recursive filter) = false := by
  induction l with
  | nil => intro vec i; simp [inventory.items_with_from]
  | cons c cs ihc =>
    intro vec i
    rw [inventory.items_with_from, ihc, inventory.items_with_recursive_eq_nil]
    simp [and_assoc]

theorem Character.items_with_worn_eq_nil (filter : item → Bool) (l : List item) :
    ∀ vec i, Character.items_with_worn filter vec i l = []
      ↔ vec = [] ∧ l.any (inventory.has_item_with_recursive filter) = false := by
  induction l with
  | nil => intro vec i; simp [Character.items_with_worn]
  | cons c cs ihc =>
    intro vec i
    rw [Character.items_with_worn, ihc, inventory.items_with_recursive_eq_nil]
    simp [and_assoc]

theorem Character.items_with_eq_nil (c : Character) (filter : item → Bool) :
    c.items_with filter = [] ↔ c.has_item_with filter = false := by
  rw [Character.has_item_with_eq]
  unfold Character.items_with inventory.items_with
  simp only [Character.items_with_worn_eq_nil]
  cases hn : c.weapon.is_null
  · simp [inventory.items_with_recursive_eq_nil, inventory.items_with_from_eq_nil, and_assoc]
  · simp [inventory.items_with_from_eq_nil]

/-- C2: `has_item_with` is true exactly when the vector returned by `items_with`, with
the same filter, is not empty. -/
theorem Character.items_with_nonempty_iff (c : Character)
    (filter : item → Bool) :
    c.has_item_with filter = true ↔ c.items_with filter ≠ [] := by
  rw [Ne, Character.items_with_eq_nil]
  cases c.has_item_with filter <;> simp

/-! ## Removing: the shape of the result -/

theorem item.remove_contents_with_acc (filter : item → Bool) (cs : List item) :
    ∀ result, item.remove_contents_with filter cs result
      = ((item.remove_contents_with filter cs []).1,
         (item.remove_contents_with filter cs []).2 ++ result) := by
  induction cs with
  | nil => intro result; simp [item.remove_contents_with]
  | cons it rest ih =>
    intro result
    by_cases h : filter it = true
    · simp only [item.remove_contents_with, h, if_true]
      rw [ih (it :: result), ih [it]]
      simp
    · simp only [item.remove_contents_with, h]
      rw [ih (_ ++ result), ih (_ ++ [])]
      simp

theorem item.remove_contents_with_cons (filter : item → Bool) (it : item) (rest result : List item) :
    item.remove_contents_with filter (it :: rest) result
      = if filter it then
          ((item.remove_contents_with filter rest []).1,
           (item.remove_contents_with filter rest []).2 ++ it :: result)
        else
          ((item.remove_items_with filter it).1 :: (item.remove_contents_with filter rest []).1,
           (item.remove_contents_with filter rest []).2
             ++ ((item.remove_items_with filter it).2 ++ result)) := by
  by_cases h : filter it = true
  · simp only [item.remove_contents_with, h, if_true]
    rw [item.remove_contents_with_acc filter rest (it :: result)]
  · simp only [item.remove_contents_with, h]
    rw [item.remove_contents_with_acc filter rest (_ ++ result)]
    simp

theorem Character.remove_items_with_worn_eq (filter : item → Bool) (ws : List item) :
    ∀ result, Character.remove_items_with_worn filter ws result
      = item.remove_contents_with filter ws result := by
  induction ws with
  | nil => intro result; rfl
  | cons w ws ih =>
    intro result
    by_cases h : filter w = true
    · simp only [Character.remove_items_with_worn, item.remove_contents_with, h, if_true, ih]
    · simp only [Character.remove_items_with_worn, item.remove_contents_with, h, ih]

theorem item.prune_list_eq (filter : item → Bool) (cs : List item) :
    item.prune_list filter cs
      = (cs.filter (fun c => !filter c)).map (item.prune filter) := by
  induction cs with
  | nil => rfl
  | cons c cs ih =>
    by_cases h : filter c = true
    · simp [item.prune_list, h, ih]
    · simp [item.prune_list, h, ih]

theorem item.remove_contents_with_fst (filter : item → Bool) (cs : List item)
    (ih : ∀ c ∈ cs, (item.remove_items_with filter c).1 = item.prune filter c) :
    (item.remove_contents_with filter cs []).1 = item.prune_list filter cs := by
  induction cs with
  | nil => rfl
  | cons c cs ihc =>
    have h1 := ihc (fun d hd => ih d (List.mem_cons_of_mem _ hd))
    have h2 := ih c (List.mem_cons_self _ _)
    rw [item.remove_contents_with_cons]
    by_cases h : filter c = true
    · simp [item.prune_list, h, h1]
    · simp [item.prune_list, h, h1, h2]

theorem item.remove_items_with_fst (filter : item → Bool) (it : item) :
    (item.remove_items_with filter it).1 = item.prune filter it := by
  induction it using item.induct_aux with
  | h t m cs ih =>
    simp only [item.remove_items_with, item.prune]
    rw [item.remove_contents_with_fst filter cs ih]

theorem item.remove_contents_with_fst_eq (filter : item → Bool) (cs : List item) :
    (item.remove_contents_with filter cs []).1 = item.prune_list filter cs :=
  item.remove_contents_with_fst filter cs (fun c _ => item.remove_items_with_fst filter c)

theorem item.prune_is_null (filter : item → Bool) (it : item) :
    (item.prune filter it).is_null = it.is_null := by
  cases it; rfl

/-- The shape of what `remove_items_with` does, by the three cases of the weapon slot. -/
theorem Character.remove_items_with_eq (c : Character) (filter : item → Bool) :
    c.remove_items_with filter =
      if c.weapon.is_null then
        ({ c with inv := ⟨item.prune_list filter c.inv.items⟩,
                  worn := item.prune_list filter c.worn },
         (item.remove_contents_with filter c.worn []).2
           ++ (item.remove_contents_with filter c.inv.items []).2)
      else if filter c.weapon then
        ({ c with inv := ⟨item.prune_list filter c.inv.items⟩,
                  worn := item.prune_list filter c.worn, weapon := ret_null },
         ((item.remove_contents_with filter c.worn []).2
           ++ (item.remove_contents_with filter c.inv.items []).2) ++ [c.weapon])
      else
        ({ c with inv := ⟨item.prune_list filter c.inv.items⟩,
                  worn := item.prune_list filter c.worn,
                  weapon := item.prune filter c.weapon },
         (item.remove_items_with filter c.weapon).2
           ++ ((item.remove_contents_with filter c.worn []).2
             ++ (item.remove_contents_with filter c.inv.items []).2)) := by
  unfold Character.remove_items_with inventory.remove_items_with Character.remove_weapon
  simp only [Character.remove_items_with_worn_eq]
  rw [item.remove_contents_with_acc filter c.worn]
  simp only [item.remove_contents_with_fst_eq, item.remove_items_with_fst]
  cases hn : c.weapon.is_null <;> cases hp : filter c.weapon <;> simp

/-! ## Removing: conservation of the item nodes -/

theorem item.nodes_list_append (a b : List item) :
    item.nodes_list (a ++ b) = item.nodes_list a ++ item.nodes_list b := by
  induction a with
  | nil => rfl
  | cons c cs ih => simp [item.nodes_list, ih]

theorem item.nodes_list_conserved (filter : item → Bool) (cs : List item)
    (ih : ∀ c ∈ cs,
      Multiset.ofList (item.nodes (item.remove_items_with filter c).1)
        + Multiset.ofList (item.nodes_list (item.remove_items_with filter c).2)
        = Multiset.ofList (item.nodes c)) :
    Multiset.ofList (item.nodes_list (item.remove_contents_with filter cs []).1)
      + Multiset.ofList (item.nodes_list (item.remove_contents_with filter cs []).2)
      = Multiset.ofList (item.nodes_list cs) := by
  induction cs with
  | nil => rfl
  | cons c cs ihc =>
    have h1 := ihc (fun d hd => ih d (List.mem_cons_of_mem _ hd))
    have h2 := ih c (List.mem_cons_self _ _)
    rw [item.remove_contents_with_cons]
    by_cases h : filter c = true
    · simp only [h, if_true, item.nodes_list, item.nodes_list_append, List.append_nil,
        ← Multiset.coe_add]
      rw [← h1]
      abel
    · simp only [h, Bool.false_eq_true, if_false, item.nodes_list, item.nodes_list_append,
        List.append_nil, ← Multiset.coe_add]
      rw [← h1, ← h2]
      abel

theorem item.nodes_conserved (filter : item → Bool) (it : item) :
    Multiset.ofList (item.nodes (item.remove_items_with filter it).1)
      + Multiset.ofList (item.nodes_list (item.remove_items_with filter it).2)
      = Multiset.ofList (item.nodes it) := by
  induction it using item.induct_aux with
  | h t m cs ih =>
    have h1 := item.nodes_list_conserved filter cs ih
    simp only [item.remove_items_with, item.nodes, ← Multiset.cons_coe]
    rw [← h1, Multiset.cons_add]

theorem item.nodes_list_conserved_eq (filter : item → Bool) (cs : List item) :
    Multiset.ofList (item.nodes_list (item.prune_list filter cs))
      + Multiset.ofList (item.nodes_list (item.remove_contents_with filter cs []).2)
      = Multiset.ofList (item.nodes_list cs) := by
  rw [← item.remove_contents_with_fst_eq]
  exact item.nodes_list_conserved filter cs (fun c _ => item.nodes_conserved filter c)

/-- C4: tree conservation for `remove_items_with`: the item nodes reachable from the tree
after the call, together with the nodes of the returned items and of their nested
contents, are as a multiset the item nodes reachable from the tree before the call,
for every predicate. -/
theorem Character.remove_items_with_conserves_nodes (c : Character) (filter : item → Bool) :
    Multiset.ofList (c.remove_items_with filter).1.nodes
      + Multiset.ofList (item.nodes_list (c.remove_items_with filter).2)
      = Multiset.ofList c.nodes := by
  have hi := item.nodes_list_conserved_eq filter c.inv.items
  have hw := item.nodes_list_conserved_eq filter c.worn
  have ha := item.nodes_conserved filter c.weapon
  rw [item.remove_items_with_fst] at ha
  rw [Character.remove_items_with_eq]
  cases hn : c.weapon.is_null
  · cases hp : filter c.weapon
    · simp only [Bool.false_eq_true, if_false, Character.nodes, item.prune_is_null, hn,
        item.nodes_list_append, ← Multiset.coe_add]
      rw [← hi, ← hw, ← ha]
      abel
    · have hr : ret_null.is_null = true := rfl
      simp only [Bool.false_eq_true, if_false, if_true, Character.nodes, hn, hr,
        item.nodes_list_append, item.nodes_list, List.append_nil, ← Multiset.coe_add]
      rw [← hi, ← hw]
      abel
  · simp only [if_true, Character.nodes, hn, item.nodes_list_append, ← Multiset.coe_add]
    rw [← hi, ← hw]
    simp only [Multiset.coe_nil, add_zero]
    abel

/-! ## Removing: when nothing matches, and when something does -/

theorem inventory.has_item_with_recursive_eq (filter : item → Bool) (it : item) :
    inventory.has_item_with_recursive filter it
      = (filter it || it.contents.any (inventory.has_item_with_recursive filter)) := by
  cases it
  exact inventory.has_item_with_recursive_mk filter _ _ _

theorem item.remove_contents_with_snd_eq_nil (filter : item → Bool) (cs : List item)
    (ih : ∀ c ∈ cs, (item.remove_items_with filter c).2 = []
      ↔ c.contents.any (inventory.has_item_with_recursive filter) = false) :
    (item.remove_contents_with filter cs []).2 = []
      ↔ cs.any (inventory.has_item_with_recursive filter) = false := by
  induction cs with
  | nil => simp [item.remove_contents_with]
  | cons c cs ihc =>
    have h1 := ihc (fun d hd => ih d (List.mem_cons_of_mem _ hd))
    have h2 := ih c (List.mem_cons_self _ _)
    rw [item.remove_contents_with_cons, List.any_cons,
      inventory.has_item_with_recursive_eq filter c]
    by_cases h : filter c = true
    · simp [h]
    · simp only [h, Bool.false_eq_true, if_false, List.append_nil, List.append_eq_nil, h1, h2]
      simp [h, and_comm]

theorem item.remove_items_with_snd_eq_nil (filter : item → Bool) (it : item) :
    (item.remove_items_with filter it).2 = []
      ↔ it.contents.any (inventory.has_item_with_recursive filter) = false := by
  induction it using item.induct_aux with
  | h t m cs ih =>
    simp only [item.remove_items_with, item.contents]
    exact item.remove_contents_with_snd_eq_nil filter cs ih

theorem item.remove_contents_with_snd_eq_nil_iff (filter : item → Bool) (cs : List item) :
    (item.remove_contents_with filter cs []).2 = []
      ↔ cs.any (inventory.has_item_with_recursive filter) = false :=
  item.remove_contents_with_snd_eq_nil filter cs
    (fun c _ => item.remove_items_with_snd_eq_nil filter c)

theorem item.prune_list_of_no_match (filter : item → Bool) (cs : List item)
    (ih : ∀ c ∈ cs, inventory.has_item_with_recursive filter c = false → item.prune filter c = c)
    (h : cs.any (inventory.has_item_with_recursive filter) = false) :
    item.prune_list filter cs = cs := by
  induction cs with
  | nil => rfl
  | cons c cs ihc =>
    rw [List.any_cons, Bool.or_eq_false_iff] at h
    have h1 := ihc (fun d hd => ih d (List.mem_cons_of_mem _ hd)) h.2
    have h2 := ih c (List.mem_cons_self _ _) h.1
    have h3 : filter c = false := by
      have := h.1
      rw [inventory.has_item_with_recursive_eq, Bool.or_eq_false_iff] at this
      exact this.1
    simp [item.prune_list, h1, h2, h3]

theorem item.prune_of_no_match (filter : item → Bool) (it : item) :
    inventory.has_item_with_recursive filter it = false → item.prune filter it = it := by
  induction it using item.induct_aux with
  | h t m cs ih =>
    intro h
    rw [inventory.has_item_with_recursive_mk, Bool.or_eq_false_iff] at h
    simp only [item.prune]
    rw [item.prune_list_of_no_match filter cs ih h.2]

theorem item.prune_list_of_no_match_eq (filter : item → Bool) (cs : List item)
    (h : cs.any (inventory.has_item_with_recursive filter) = false) :
    item.prune_list filter cs = cs :=
  item.prune_list_of_no_match filter cs (fun c _ => item.prune_of_no_match filter c) h

theorem Character.remove_items_with_of_no_match (c : Character) (filter : item → Bool)
    (h : c.has_item_with filter = false) : c.remove_items_with filter = (c, []) := by
  rw [Character.has_item_with_eq] at h
  rw [Character.remove_items_with_eq]
  simp only [Bool.or_eq_false_iff, Bool.and_eq_false_imp, Bool.not_eq_true'] at h
  obtain ⟨⟨hi, hw⟩, hn⟩ := h
  rw [item.prune_list_of_no_match_eq filter _ hi, item.prune_list_of_no_match_eq filter _ hn,
    (item.remove_contents_with_snd_eq_nil_iff filter _).2 hi,
    (item.remove_contents_with_snd_eq_nil_iff filter _).2 hn]
  cases hz : c.weapon.is_null
  · have hr := hw hz
    have hr2 := hr
    rw [inventory.has_item_with_recursive_eq, Bool.or_eq_false_iff] at hr2
    rw [item.prune_of_no_match filter _ hr, (item.remove_items_with_snd_eq_nil filter _).2 hr2.2]
    simp [hr2.1]
  · simp

theorem Character.remove_items_with_ne_nil_of_match (c : Character) (filter : item → Bool)
    (h : c.has_item_with filter = true) : (c.remove_items_with filter).2 ≠ [] := by
  rw [Character.has_item_with_eq] at h
  rw [Character.remove_items_with_eq]
  intro hnil
  cases hz : c.weapon.is_null
  · cases hp : filter c.weapon
    · simp only [hz, hp, Bool.false_eq_true, if_false, List.append_eq_nil,
        item.remove_contents_with_snd_eq_nil_iff, item.remove_items_with_snd_eq_nil] at hnil
      rw [inventory.has_item_with_recursive_eq filter c.weapon] at h
      simp [hnil, hp] at h
    · simp [hz, hp] at hnil
  · simp only [hz, if_true, List.append_eq_nil,
      item.remove_contents_with_snd_eq_nil_iff] at hnil
    simp [hnil, hz] at h

/-- C7: when no item in the possession of the character matches, `remove_items_with`
returns the empty list and leaves the inventory, the worn list and the weapon as they
were; when some item matches, the returned list is not empty. -/
theorem Character.remove_items_with_frame (c : Character) (filter : item → Bool) :
    (c.has_item_with filter = false → c.remove_items_with filter = (c, []))
      ∧ (c.has_item_with filter = true → (c.remove_items_with filter).2 ≠ []) :=
  ⟨Character.remove_items_with_of_no_match c filter,
   Character.remove_items_with_ne_nil_of_match c filter⟩

/-- C7, at sample inputs: the courier has no empty backpack and is left as it was; it has
an arrow, and the returned list is not empty. -/
theorem Character.remove_items_with_frame_witness :
    courier.remove_items_with is_empty_backpack = (courier, [])
      ∧ (courier.remove_items_with is_arrow).2 ≠ [] :=
  ⟨(Character.remove_items_with_frame courier is_empty_backpack).1 rfl,
   (Character.remove_items_with_frame courier is_arrow).2 rfl⟩

/-! ## Removing: what is left matches no more, for a filter that pruning does not turn -/

theorem item.has_item_with_prune_list (filter : item → Bool) (cs : List item)
    (ih : ∀ c ∈ cs, filter c = false →
      inventory.has_item_with_recursive filter (item.prune filter c) = false) :
    (item.prune_list filter cs).any (inventory.has_item_with_recursive filter) = false := by
  rw [item.prune_list_eq, List.any_eq_false]
  intro x hx
  obtain ⟨c, hc, rfl⟩ := List.mem_map.1 hx
  rw [List.mem_filter] at hc
  have := ih c hc.1 (by simpa using hc.2)
  simp [this]

theorem item.has_item_with_prune (filter : item → Bool)
    (hp : ∀ it, filter it = false → filter (item.prune filter it) = false) (it : item) :
    filter it = false →
      inventory.has_item_with_recursive filter (item.prune filter it) = false := by
  induction it using item.induct_aux with
  | h t m cs ih =>
    intro h
    have h1 := hp _ h
    simp only [item.prune] at h1 ⊢
    rw [inventory.has_item_with_recursive_mk, h1, item.has_item_with_prune_list filter cs ih]
    rfl

theorem item.has_item_with_prune_list_eq (filter : item → Bool)
    (hp : ∀ it, filter it = false → filter (item.prune filter it) = false) (cs : List item) :
    (item.prune_list filter cs).any (inventory.has_item_with_recursive filter) = false :=
  item.has_item_with_prune_list filter cs (fun c _ => item.has_item_with_prune filter hp c)

/-- C3, as stated, fails: the hiker wears a backpack holding an empty backpack. Removing
the empty backpacks takes the inner one and leaves the worn one, now empty, so
`has_item_with` still finds an empty backpack in the resulting tree. -/
theorem Character.remove_items_with_not_total :
    hiker.remove_items_with is_empty_backpack
        = (⟨[backpack []], ⟨[]⟩, ret_null, -1⟩, [backpack []])
      ∧ (hiker.remove_items_with is_empty_backpack).1.has_item_with is_empty_backpack
        = true :=
  ⟨rfl, rfl⟩

/-- C3, amended: for a filter whose verdict on an item that does not match stays the
same once the matching items have been taken out of that item (every filter that does
not look at the contents is one), nothing in the possession of the character matches
after `remove_items_with`, and if the weapon matched the slot holds the null item. -/
theorem Character.remove_items_with_total (c : Character) (filter : item → Bool)
    (hp : ∀ it, filter it = false → filter (item.prune filter it) = false) :
    (c.remove_items_with filter).1.has_item_with filter = false
      ∧ (filter c.weapon = true → (c.remove_items_with filter).1.weapon.is_null = true) := by
  have hi := item.has_item_with_prune_list_eq filter hp c.inv.items
  have hw := item.has_item_with_prune_list_eq filter hp c.worn
  rw [Character.remove_items_with_eq]
  cases hz : c.weapon.is_null
  · cases hf : filter c.weapon
    · simp [Character.has_item_with_eq, hi, hw, item.has_item_with_prune filter hp _ hf]
    · have hr : ret_null.is_null = true := rfl
      simp [Character.has_item_with_eq, hi, hw, hr]
  · simp [Character.has_item_with_eq, hi, hw, hz]

/-- C3, amended, at a sample input: the filter for the items of mission 7 looks at
`mission_id` alone; after the removal the smuggler, who wielded such an item, has none
left and the null item as weapon. -/
theorem Character.remove_items_with_total_witness :
    (smuggler.remove_items_with (has_mission_item_filter 7)).1.has_item_with
        (has_mission_item_filter 7) = false
      ∧ (smuggler.remove_items_with (has_mission_item_filter 7)).1.weapon.is_null = true :=
  ⟨(Character.remove_items_with_total smuggler (has_mission_item_filter 7)
      (fun it h => by cases it; exact h)).1,
   (Character.remove_items_with_total smuggler (has_mission_item_filter 7)
      (fun it h => by cases it; exact h)).2 rfl⟩

/-! ## Removing: where the matching items go -/

theorem item.mem_remove_contents_with_of_match (filter : item → Bool) (cs : List item) :
    ∀ a ∈ cs, filter a = true → a ∈ (item.remove_contents_with filter cs []).2 := by
  induction cs with
  | nil => intro a ha; exact absurd ha (List.not_mem_nil _)
  | cons c cs ih =>
    intro a ha hf
    rw [item.remove_contents_with_cons]
    rcases List.mem_cons.1 ha with rfl | ha
    · simp [hf]
    · have := ih a ha hf
      by_cases h : filter c = true
      · simp [h, this]
      · simp [h, this]

theorem item.remove_items_with_snd_subset (filter : item → Bool) (cs : List item) :
    ∀ c ∈ cs, filter c = false → ∀ r ∈ (item.remove_items_with filter c).2,
      r ∈ (item.remove_contents_with filter cs []).2 := by
  induction cs with
  | nil => intro c hc; exact absurd hc (List.not_mem_nil _)
  | cons d ds ih =>
    intro c hc hf r hr
    rw [item.remove_contents_with_cons]
    rcases List.mem_cons.1 hc with rfl | hc
    · simp [hf, hr]
    · have := ih c hc hf r hr
      by_cases h : filter d = true
      · simp [h, this]
      · simp [h, this]

theorem item.within_removed_of_match (filter : item → Bool) (it : item) :
    filter it = false → ∀ x, x.within it → filter x = true →
      ∃ r ∈ (item.remove_items_with filter it).2, x.within r := by
  induction it using item.induct_aux with
  | h t m cs ih =>
    intro hf x hx hfx
    rcases (item.within_mk_iff x t m cs).1 hx with rfl | ⟨c, hc, hxc⟩
    · rw [hf] at hfx
      exact Bool.noConfusion hfx
    · simp only [item.remove_items_with]
      cases hfc : filter c
      · obtain ⟨r, hr, hxr⟩ := ih c hc hfc x hxc hfx
        exact ⟨r, item.remove_items_with_snd_subset filter cs c hc hfc r hr, hxr⟩
      · exact ⟨c, item.mem_remove_contents_with_of_match filter cs c hc hfc, hxc⟩

theorem Character.worn_removed_subset (c : Character) (filter : item → Bool) :
    ∀ r ∈ (item.remove_contents_with filter c.worn []).2, r ∈ (c.remove_items_with filter).2 := by
  intro r hr
  rw [Character.remove_items_with_eq]
  cases c.weapon.is_null <;> cases filter c.weapon <;> simp [hr]

theorem Character.worn_after_remove (c : Character) (filter : item → Bool) :
    (c.remove_items_with filter).1.worn = item.prune_list filter c.worn := by
  rw [Character.remove_items_with_eq]
  cases c.weapon.is_null <;> cases filter c.weapon <;> rfl

/-- C5, as stated, fails: the archer wears a quiver, which matches, holding an arrow, which
does not. The removal returns the quiver with the arrow in it and leaves the archer
with nothing: the arrow is not in the possession tree any more, and it is part of the
returned collection. -/
theorem Character.remove_items_with_no_rehoming :
    quiver ∈ archer.worn ∧ is_quiver quiver = true
      ∧ arrow ∈ quiver.contents ∧ is_quiver arrow = false
      ∧ archer.remove_items_with is_quiver = (pauper, [quiver])
      ∧ ¬ (archer.remove_items_with is_quiver).1.possesses arrow
      ∧ ∃ r ∈ (archer.remove_items_with is_quiver).2, arrow.within r := by
  have e : archer.remove_items_with is_quiver = (pauper, [quiver]) := rfl
  refine ⟨List.mem_singleton.2 rfl, rfl, List.mem_singleton.2 rfl, rfl, e, ?_, ?_⟩
  · rintro ⟨r, hr, _⟩
    rw [e] at hr
    rcases hr with hr | ⟨hr, _⟩ | hr
    · exact absurd hr (List.not_mem_nil _)
    · exact Bool.noConfusion hr
    · exact absurd hr (List.not_mem_nil _)
  · rw [e]
    exact ⟨quiver, List.mem_singleton.2 rfl,
      item.within.step (List.mem_singleton.2 rfl) (item.within.self arrow)⟩

theorem item.nodes_le_nodes_list (A : item) (l : List item) (h : A ∈ l) :
    Multiset.ofList A.nodes ≤ Multiset.ofList (item.nodes_list l) := by
  induction l with
  | nil => exact absurd h (List.not_mem_nil _)
  | cons c cs ih =>
    simp only [item.nodes_list, ← Multiset.coe_add]
    rcases List.mem_cons.1 h with rfl | h
    · exact le_self_add
    · exact (ih h).trans le_add_self

theorem Character.nodes_after_add_returned_le (c : Character) (filter : item → Bool)
    (A : item) (hA : A ∈ (c.remove_items_with filter).2) :
    Multiset.ofList (c.remove_items_with filter).1.nodes + Multiset.ofList A.nodes
      ≤ Multiset.ofList c.nodes := by
  have hcons : Multiset.ofList (c.remove_items_with filter).1.nodes
      + Multiset.ofList (item.nodes_list (c.remove_items_with filter).2)
      = Multiset.ofList c.nodes := by
    have hi := item.nodes_list_conserved_eq filter c.inv.items
    have hw := item.nodes_list_conserved_eq filter c.worn
    have ha := item.nodes_conserved filter c.weapon
    rw [item.remove_items_with_fst] at ha
    rw [Character.remove_items_with_eq]
    cases hn : c.weapon.is_null
    · cases hp : filter c.weapon
      · simp only [Bool.false_eq_true, if_false, Character.nodes, item.prune_is_null, hn,
          item.nodes_list_append, ← Multiset.coe_add]
        rw [← hi, ← hw, ← ha]
        abel
      · have hr : ret_null.is_null = true := rfl
        simp only [Bool.false_eq_true, if_false, if_true, Character.nodes, hn, hr,
          item.nodes_list_append, item.nodes_list, List.append_nil, ← Multiset.coe_add]
        rw [← hi, ← hw]
        abel
    · simp only [if_true, Character.nodes, hn, item.nodes_list_append, ← Multiset.coe_add]
      rw [← hi, ← hw]
      simp only [Multiset.coe_nil, add_zero]
      abel
  rw [← hcons]
  exact add_le_add_left (item.nodes_le_nodes_list A _ hA) _

theorem Character.inv_after_remove (c : Character) (filter : item → Bool) :
    (c.remove_items_with filter).1.inv.items = item.prune_list filter c.inv.items := by
  rw [Character.remove_items_with_eq]
  cases c.weapon.is_null <;> cases filter c.weapon <;> rfl

theorem Character.weapon_after_remove (c : Character) (filter : item → Bool) :
    (c.remove_items_with filter).1.weapon
      = if c.weapon.is_null then c.weapon
        else if filter c.weapon then ret_null
        else item.prune filter c.weapon := by
  rw [Character.remove_items_with_eq]
  cases c.weapon.is_null <;> cases filter c.weapon <;> rfl

/-- C5, amended: a worn item, or a weapon that is not the null item, that matches is
moved to the returned list whole: it is an element of the returned list, so every item
inside it, matching or not, is part of the returned collection.  Nothing of it is put
back: counting item nodes, the tree after the call together with the nodes of that item
(itself and everything inside it) fits into the tree before the call, and the tree after
the call is exactly the items that did not match, pruned: the inventory and the worn list
keep their non-matching items, in order, each without the matching items of its contents,
and the weapon slot holds the null item if the weapon matched, the pruned weapon
otherwise. -/
theorem Character.remove_items_with_takes_contents (c : Character) (filter : item → Bool)
    (A : item) (hA : A ∈ c.worn ∨ (c.weapon.is_null = false ∧ A = c.weapon))
    (hf : filter A = true) :
    A ∈ (c.remove_items_with filter).2
      ∧ (∀ B : item, B.within A → ∃ r ∈ (c.remove_items_with filter).2, B.within r)
      ∧ Multiset.ofList (c.remove_items_with filter).1.nodes + Multiset.ofList A.nodes
          ≤ Multiset.ofList c.nodes
      ∧ (c.remove_items_with filter).1.inv.items
          = (c.inv.items.filter (fun w => !filter w)).map (item.prune filter)
      ∧ (c.remove_items_with filter).1.worn
          = (c.worn.filter (fun w => !filter w)).map (item.prune filter)
      ∧ (c.remove_items_with filter).1.weapon
          = (if c.weapon.is_null then c.weapon
             else if filter c.weapon then ret_null
             else item.prune filter c.weapon) := by
  have hmem : A ∈ (c.remove_items_with filter).2 := by
    rcases hA with hA | ⟨hz, rfl⟩
    · exact Character.worn_removed_subset c filter A
        (item.mem_remove_contents_with_of_match filter c.worn A hA hf)
    · rw [Character.remove_items_with_eq]
      simp [hz, hf]
  refine ⟨hmem, fun B hB => ⟨A, hmem, hB⟩,
    Character.nodes_after_add_returned_le c filter A hmem, ?_, ?_,
    Character.weapon_after_remove c filter⟩
  · rw [Character.inv_after_remove, item.prune_list_eq]
  · rw [Character.worn_after_remove, item.prune_list_eq]

/-- C5, amended, at sample inputs: the worn quiver of the archer is returned with its arrow
and the archer is left with nothing in the inventory and nothing worn; the smuggler,
whose weapon matched, is left with the null item as weapon. -/
theorem Character.remove_items_with_takes_contents_witness :
    quiver ∈ (archer.remove_items_with is_quiver).2
      ∧ (∃ r ∈ (archer.remove_items_with is_quiver).2, arrow.within r)
      ∧ Multiset.ofList (archer.remove_items_with is_quiver).1.nodes
          + Multiset.ofList quiver.nodes ≤ Multiset.ofList archer.nodes
      ∧ (archer.remove_items_with is_quiver).1.inv.items = []
      ∧ (archer.remove_items_with is_quiver).1.worn = []
      ∧ (smuggler.remove_items_with (has_mission_item_filter 7)).1.weapon = ret_null :=
  ⟨(Character.remove_items_with_takes_contents archer is_quiver quiver
      (Or.inl (List.mem_singleton.2 rfl)) rfl).1,
   (Character.remove_items_with_takes_contents archer is_quiver quiver
      (Or.inl (List.mem_singleton.2 rfl)) rfl).2.1 arrow
      (item.within.step (List.mem_singleton.2 rfl) (item.within.self arrow)),
   (Character.remove_items_with_takes_contents archer is_quiver quiver
      (Or.inl (List.mem_singleton.2 rfl)) rfl).2.2.1,
   (Character.remove_items_with_takes_contents archer is_quiver quiver
      (Or.inl (List.mem_singleton.2 rfl)) rfl).2.2.2.1,
   (Character.remove_items_with_takes_contents archer is_quiver quiver
      (Or.inl (List.mem_singleton.2 rfl)) rfl).2.2.2.2.1,
   (Character.remove_items_with_takes_contents smuggler (has_mission_item_filter 7) package
      (Or.inr ⟨rfl, rfl⟩) rfl).2.2.2.2.2⟩

theorem item.prune_contents (filter : item → Bool) (it : item) :
    (item.prune filter it).contents
      = (it.contents.filter (fun c => !filter c)).map (item.prune filter) := by
  cases it
  simp only [item.prune, item.contents, item.prune_list_eq]

theorem Character.weapon_removed_subset (c : Character) (filter : item → Bool)
    (hz : c.weapon.is_null = false) (hf : filter c.weapon = false) :
    (c.remove_items_with filter).1.weapon = item.prune filter c.weapon
      ∧ ∀ r ∈ (item.remove_items_with filter c.weapon).2, r ∈ (c.remove_items_with filter).2 := by
  rw [Character.remove_items_with_eq]
  simp only [hz, hf, Bool.false_eq_true, if_false, true_and]
  intro r hr
  exact List.mem_append_left _ hr

/-- C6: `remove_items_with` descends into the items that do not match. The worn list is
left with the worn items that did not match, in their original order, each with the
matching items taken out of its contents, recursively; every matching item that was
inside such a worn item is in the returned collection; and the same holds for a weapon
that is not the null item and does not match, which stays in its slot. -/
theorem Character.remove_items_with_descends (c : Character) (filter : item → Bool) :
    (c.remove_items_with filter).1.worn
        = (c.worn.filter (fun w => !filter w)).map (item.prune filter)
      ∧ (∀ w ∈ c.worn, filter w = false → ∀ x : item, x.within w → filter x = true →
          ∃ r ∈ (c.remove_items_with filter).2, x.within r)
      ∧ (c.weapon.is_null = false → filter c.weapon = false →
          (c.remove_items_with filter).1.weapon = item.prune filter c.weapon
            ∧ ∀ x : item, x.within c.weapon → filter x = true →
                ∃ r ∈ (c.remove_items_with filter).2, x.within r) := by
  refine ⟨?_, ?_, ?_⟩
  · rw [Character.worn_after_remove, item.prune_list_eq]
  · intro w hw hf x hx hfx
    obtain ⟨r, hr, hxr⟩ := item.within_removed_of_match filter w hf x hx hfx
    exact ⟨r, Character.worn_removed_subset c filter r
      (item.remove_items_with_snd_subset filter c.worn w hw hf r hr), hxr⟩
  · intro hz hf
    obtain ⟨h1, h2⟩ := Character.weapon_removed_subset c filter hz hf
    refine ⟨h1, ?_⟩
    intro x hx hfx
    obtain ⟨r, hr, hxr⟩ := item.within_removed_of_match filter c.weapon hf x hx hfx
    exact ⟨r, h2 r hr, hxr⟩

/-- C6, at a sample input: removing the arrows from the courier leaves both worn items in
place, the quiver emptied of its arrow, returns the arrow, and leaves the knife in the
weapon slot. -/
theorem Character.remove_items_with_descends_witness :
    (courier.remove_items_with is_arrow).1.worn
        = [backpack [knife, package], item.mk "quiver" (-1) []]
      ∧ (∃ r ∈ (courier.remove_items_with is_arrow).2, arrow.within r)
      ∧ (courier.remove_items_with is_arrow).1.weapon = knife :=
  ⟨(Character.remove_items_with_descends courier is_arrow).1,
   (Character.remove_items_with_descends courier is_arrow).2.1 quiver
      (List.mem_cons_of_mem _ (List.mem_singleton.2 rfl)) rfl arrow
      (item.within.step (List.mem_singleton.2 rfl) (item.within.self arrow)) rfl,
   ((Character.remove_items_with_descends courier is_arrow).2.2 rfl rfl).1⟩

/-! ## The turn of death -/

/-- C8, on the code: with `turn_died` still -1, `set_turn_died 5` leaves it at -1; with
`turn_died` already set to 3, `set_turn_died 5` overwrites it with 5. -/
theorem Character.set_turn_died_inverted :
    (pauper.set_turn_died 5).get_turn_died = -1
      ∧ ((Character.mk [] ⟨[]⟩ ret_null 3).set_turn_died 5).get_turn_died = 5 :=
  ⟨rfl, rfl⟩

/-! ## Worn items -/

theorem Character.is_worn_from_iff (thing : item_ptr) (ws : List item) :
    ∀ k, Character.is_worn_from thing k ws = true
      ↔ ∃ i, i < ws.length ∧ thing = ⟨item_root.worn (k + i), []⟩ := by
  induction ws with
  | nil => intro k; simp [Character.is_worn_from]
  | cons w ws ih =>
    intro k
    rw [Character.is_worn_from]
    by_cases h : thing = ⟨item_root.worn k, []⟩
    · simp only [h, if_true, true_iff]
      exact ⟨0, by simp, rfl⟩
    · simp only [h, if_false, ih]
      constructor
      · rintro ⟨i, hi, e⟩
        exact ⟨i + 1, by simpa using hi, by rw [e]; congr 2; omega⟩
      · rintro ⟨i, hi, e⟩
        cases i with
        | zero => exact absurd e h
        | succ j => exact ⟨j, by simpa using hi, by rw [e]; congr 2; omega⟩

/-- C9: `is_worn` is an identity check against the top level of the worn list: it returns
true exactly for the references to the nodes of `worn`, and false for a reference to
the weapon, into the inventory, or to an item nested inside another, whatever the value
of the item referred to. -/
theorem Character.is_worn_iff (c : Character) (thing : item_ptr) :
    (c.is_worn thing = true
        ↔ ∃ i, i < c.worn.length ∧ thing = ⟨item_root.worn i, []⟩)
      ∧ ((thing.root = item_root.weapon ∨ (∃ i, thing.root = item_root.inv i)
            ∨ thing.path ≠ []) → c.is_worn thing = false) := by
  have h : c.is_worn thing = true
      ↔ ∃ i, i < c.worn.length ∧ thing = ⟨item_root.worn i, []⟩ := by
    unfold Character.is_worn
    rw [Character.is_worn_from_iff]
    simp
  refine ⟨h, ?_⟩
  intro hcases
  cases hw : c.is_worn thing
  · rfl
  · obtain ⟨i, _, e⟩ := h.1 hw
    subst e
    rcases hcases with h1 | ⟨j, h1⟩ | h1
    · exact item_root.noConfusion h1
    · exact item_root.noConfusion h1
    · exact absurd rfl h1

/-- C9, at a sample input: the duelist wields, carries and keeps in a worn backpack knives
equal in value to the knife that is worn; only the reference to the worn one is worn. -/
theorem Character.is_worn_iff_witness :
    duelist.deref ⟨item_root.weapon, []⟩ = duelist.deref ⟨item_root.worn 0, []⟩
      ∧ duelist.deref ⟨item_root.inv 0, []⟩ = duelist.deref ⟨item_root.worn 0, []⟩
      ∧ duelist.deref ⟨item_root.worn 1, [0]⟩ = duelist.deref ⟨item_root.worn 0, []⟩
      ∧ duelist.is_worn ⟨item_root.weapon, []⟩ = false
      ∧ duelist.is_worn ⟨item_root.inv 0, []⟩ = false
      ∧ duelist.is_worn ⟨item_root.worn 1, [0]⟩ = false
      ∧ duelist.is_worn ⟨item_root.worn 0, []⟩ = true :=
  ⟨rfl, rfl, rfl,
   (Character.is_worn_iff duelist ⟨item_root.weapon, []⟩).2 (Or.inl rfl),
   (Character.is_worn_iff duelist ⟨item_root.inv 0, []⟩).2 (Or.inr (Or.inl ⟨0, rfl⟩)),
   (Character.is_worn_iff duelist ⟨item_root.worn 1, [0]⟩).2
      (Or.inr (Or.inr (List.cons_ne_nil 0 []))),
   (Character.is_worn_iff duelist ⟨item_root.worn 0, []⟩).1.2 ⟨0, by decide, rfl⟩⟩

/-! ## The null item in the weapon slot -/

theorem item.at_path_cons (it c : item) (j : Nat) (path : List Nat)
    (h : it.contents.get? j = some c) : it.at_path (j :: path) = c.at_path path := by
  simp only [item.at_path, h]

theorem inventory.items_with_contents_sound (filter : item → Bool) (cs : List item)
    (ih : ∀ c ∈ cs, ∀ vec p q, q ∈ inventory.items_with_recursive filter vec p c →
      q ∈ vec ∨ ∃ path x, q = ⟨p.root, p.path ++ path⟩ ∧ c.at_path path = some x
        ∧ filter x = true) :
    ∀ vec p j q, q ∈ inventory.items_with_contents filter vec p j cs →
      q ∈ vec ∨ ∃ k c path x, cs.get? k = some c ∧ q = ⟨p.root, p.path ++ (j + k) :: path⟩
        ∧ c.at_path path = some x ∧ filter x = true := by
  induction cs with
  | nil =>
    intro vec p j q hq
    exact Or.inl hq
  | cons c cs ihc =>
    intro vec p j q hq
    rw [inventory.items_with_contents] at hq
    rcases ihc (fun d hd => ih d (List.mem_cons_of_mem _ hd)) _ p (j + 1) q hq with
      h | ⟨k, d, path, x, hk, hq, hx, hf⟩
    · rcases ih c (List.mem_cons_self _ _) vec (p.child j) q h with h | ⟨path, x, hq, hx, hf⟩
      · exact Or.inl h
      · refine Or.inr ⟨0, c, path, x, rfl, ?_, hx, hf⟩
        rw [hq]
        simp [item_ptr.child]
    · refine Or.inr ⟨k + 1, d, path, x, hk, ?_, hx, hf⟩
      rw [hq]
      congr 3
      omega

theorem inventory.items_with_recursive_sound (filter : item → Bool) (it : item) :
    ∀ vec p q, q ∈ inventory.items_with_recursive filter vec p it →
      q ∈ vec ∨ ∃ path x, q = ⟨p.root, p.path ++ path⟩ ∧ it.at_path path = some x
        ∧ filter x = true := by
  induction it using item.induct_aux with
  | h t m cs ih =>
    intro vec p q hq
    rw [inventory.items_with_recursive] at hq
    rcases inventory.items_with_contents_sound filter cs ih _ p 0 q hq with
      h | ⟨k, c, path, x, hk, hq, hx, hf⟩
    · by_cases hfi : filter (item.mk t m cs) = true
      · rw [if_pos hfi] at h
        rcases List.mem_append.1 h with h | h
        · exact Or.inl h
        · refine Or.inr ⟨[], item.mk t m cs, ?_, rfl, hfi⟩
          rw [List.mem_singleton.1 h, List.append_nil]
      · rw [if_neg hfi] at h
        exact Or.inl h
    · refine Or.inr ⟨k :: path, x, ?_, ?_, hf⟩
      · rw [hq, Nat.zero_add]
      · rw [item.at_path_cons (item.mk t m cs) c k path hk, hx]

theorem inventory.items_with_from_sound (filter : item → Bool) (l : List item) :
    ∀ vec i q, q ∈ inventory.items_with_from filter vec i l →
      q ∈ vec ∨ ∃ k it path x, l.get? k = some it ∧ q = ⟨item_root.inv (i + k), path⟩
        ∧ it.at_path path = some x ∧ filter x = true := by
  induction l with
  | nil =>
    intro vec i q hq
    exact Or.inl hq
  | cons c cs ihc =>
    intro vec i q hq
    rw [inventory.items_with_from] at hq
    rcases ihc _ (i + 1) q hq with h | ⟨k, d, path, x, hk, hq, hx, hf⟩
    · rcases inventory.items_with_recursive_sound filter c vec _ q h with
        h | ⟨path, x, hq, hx, hf⟩
      · exact Or.inl h
      · exact Or.inr ⟨0, c, path, x, rfl, by simpa using hq, hx, hf⟩
    · refine Or.inr ⟨k + 1, d, path, x, hk, ?_, hx, hf⟩
      rw [hq]
      congr 2
      omega

theorem Character.items_with_worn_sound (filter : item → Bool) (l : List item) :
    ∀ vec i q, q ∈ Character.items_with_worn filter vec i l →
      q ∈ vec ∨ ∃ k it path x, l.get? k = some it ∧ q = ⟨item_root.worn (i + k), path⟩
        ∧ it.at_path path = some x ∧ filter x = true := by
  induction l with
  | nil =>
    intro vec i q hq
    exact Or.inl hq
  | cons c cs ihc =>
    intro vec i q hq
    rw [Character.items_with_worn] at hq
    rcases ihc _ (i + 1) q hq with h | ⟨k, d, path, x, hk, hq, hx, hf⟩
    · rcases inventory.items_with_recursive_sound filter c vec _ q h with
        h | ⟨path, x, hq, hx, hf⟩
      · exact Or.inl h
      · exact Or.inr ⟨0, c, path, x, rfl, by simpa using hq, hx, hf⟩
    · refine Or.inr ⟨k + 1, d, path, x, hk, ?_, hx, hf⟩
      rw [hq]
      congr 2
      omega

/-- Every reference returned by `items_with` points to an item of the possession tree
that matches the filter. -/
theorem Character.items_with_sound (c : Character) (filter : item → Bool) (q : item_ptr)
    (hq : q ∈ c.items_with filter) : ∃ x, c.deref q = some x ∧ filter x = true := by
  unfold Character.items_with inventory.items_with at hq
  rcases Character.items_with_worn_sound filter c.worn _ 0 q hq with
    h | ⟨k, it, path, x, hk, rfl, hx, hf⟩
  · have hinv : q ∈ inventory.items_with_from filter [] 0 c.inv.items →
        ∃ x, c.deref q = some x ∧ filter x = true := by
      intro h
      rcases inventory.items_with_from_sound filter c.inv.items [] 0 q h with
        h | ⟨k, it, path, x, hk, rfl, hx, hf⟩
      · exact absurd h (List.not_mem_nil _)
      · refine ⟨x, ?_, hf⟩
        simp only [Character.deref, Nat.zero_add, hk, hx]
    cases hz : c.weapon.is_null
    · simp only [hz, Bool.not_false, if_true] at h
      rcases inventory.items_with_recursive_sound filter c.weapon _ _ q h with
        h | ⟨path, x, rfl, hx, hf⟩
      · exact hinv h
      · refine ⟨x, ?_, hf⟩
        simp only [Character.deref, List.nil_append, hx]
    · simp only [hz, Bool.not_true, Bool.false_eq_true, if_false] at h
      exact hinv h
  · refine ⟨x, ?_, hf⟩
    simp only [Character.deref, Nat.zero_add, hk, hx]
